import Mathlib

/-!
Verification of the LiveLoop Studio control plane against its natural-language
specification.  The definitions below are a shallow embedding of the
TypeScript source: `TrackData` and the imperative clip handle come from
`src/components/AudioCard.tsx` and `src/types.ts`, the trigger router from the
`App` component (`handlePlayRequest`, `handleGlobalKeyDown`,
`handleUpdateTrack`, `handleLoadSession`), the decode queue from
`src/utils/audio.ts`, the DMX panel from `DmxPanel`, and the serial options
from `src/utils/serialPlugin.ts`.  Times and volumes are modelled as rationals.
-/

namespace LiveLoop

/-- Track record as in `src/types.ts` (`TrackData`).  `fileUrl` and `path`
are carried along verbatim; `assignedKey` is `string | null`. -/
structure TrackData where
  id : String
  name : String
  fileUrl : String
  volume : ℚ
  startPoint : ℚ
  isLooping : Bool
  assignedKey : Option String
  duration : ℚ
  path : Option String
deriving DecidableEq, Repr

/-- The per-card runtime state of `AudioCard`: the track prop, the audio
element's `currentTime`, the local `isPlaying` flag and the local `duration`
state (`useState(track.duration || 0)`). -/
structure CardState where
  track : TrackData
  currentTime : ℚ
  playing : Bool
  duration : ℚ
deriving DecidableEq, Repr

namespace ClipHandle

/-- `play` from the `useImperativeHandle` block of `AudioCard.tsx`: if
`currentTime < track.startPoint` snap to the start point, then start playback. -/
def play (c : CardState) : CardState :=
  let c1 := if c.currentTime < c.track.startPoint
            then { c with currentTime := c.track.startPoint } else c
  { c1 with playing := true }

/-- `pause` from the imperative handle: `audioRef.current?.pause()`. -/
def pause (c : CardState) : CardState :=
  { c with playing := false }

/-- `stop` from the imperative handle: pause and reset `currentTime` to the
track's start point. -/
def stop (c : CardState) : CardState :=
  { c with playing := false, currentTime := c.track.startPoint }

/-- `isPlaying` from the imperative handle. -/
def isPlaying (c : CardState) : Bool := c.playing

end ClipHandle

/-- `handlePlayRequest` from the `App` component: in exclusive mode
(`shiftKey` false) every other playing card is stopped first; then the target
card is played. -/
def handlePlayRequest (cards : List CardState) (targetId : String)
    (shiftKey : Bool) : List CardState :=
  let afterStops :=
    if shiftKey then cards
    else cards.map fun c =>
      if c.track.id ≠ targetId ∧ c.playing then ClipHandle.stop c else c
  afterStops.map fun c =>
    if c.track.id = targetId then ClipHandle.play c else c

/-- Playing flag of the card at position `i`, if any. -/
def playingAt (cards : List CardState) (i : ℕ) : Option Bool :=
  (cards.get? i).map (·.playing)

theorem stop_playing (c : CardState) : (ClipHandle.stop c).playing = false := rfl

theorem stop_track (c : CardState) : (ClipHandle.stop c).track = c.track := rfl

theorem stop_currentTime (c : CardState) :
    (ClipHandle.stop c).currentTime = c.track.startPoint := rfl

theorem play_playing (c : CardState) : (ClipHandle.play c).playing = true := rfl

theorem play_track (c : CardState) : (ClipHandle.play c).track = c.track := by
  unfold ClipHandle.play
  dsimp only
  split <;> rfl

theorem pause_playing (c : CardState) : (ClipHandle.pause c).playing = false := rfl

/-- Pointwise description of `handlePlayRequest`: each position is transformed
independently (stopping only applies to non-target playing cards, playing only
to the target). -/
theorem handlePlayRequest_get? (cards : List CardState) (tid : String)
    (shift : Bool) (i : ℕ) :
    (handlePlayRequest cards tid shift).get? i =
      (cards.get? i).map (fun c =>
        let c1 := if shift = false ∧ c.track.id ≠ tid ∧ c.playing
                  then ClipHandle.stop c else c
        if c1.track.id = tid then ClipHandle.play c1 else c1) := by
  unfold handlePlayRequest
  cases shift with
  | false =>
      rw [if_neg (by simp), List.get?_map, List.get?_map]
      cases h : cards.get? i with
      | none => rfl
      | some c => simp
  | true =>
      rw [if_pos rfl, List.get?_map]
      cases h : cards.get? i with
      | none => rfl
      | some c => simp

/-- Claim C2: exclusive-vs-layered trigger.  With clips `A` (playing) and `B`
(stopped, target), a play request for `B` without the layering modifier leaves
`A` stopped and `B` playing; with the modifier held, `A` keeps playing, `B`
plays too, and every card other than the target is left exactly unchanged. -/
theorem exclusive_vs_layered_trigger (cards : List CardState) (iA iB : ℕ)
    (A B : CardState)
    (hA : cards.get? iA = some A) (hB : cards.get? iB = some B)
    (hid : A.track.id ≠ B.track.id)
    (hApl : A.playing = true) (hBpl : B.playing = false) :
    (playingAt (handlePlayRequest cards B.track.id false) iA = some false
      ∧ playingAt (handlePlayRequest cards B.track.id false) iB = some true)
    ∧ ((handlePlayRequest cards B.track.id true).get? iA = some A
      ∧ playingAt (handlePlayRequest cards B.track.id true) iB = some true
      ∧ ∀ i C, cards.get? i = some C → C.track.id ≠ B.track.id →
          (handlePlayRequest cards B.track.id true).get? i = some C) := by
  refine ⟨⟨?_, ?_⟩, ?_, ?_, ?_⟩
  · rw [playingAt, handlePlayRequest_get? cards B.track.id false iA, hA]
    simp [hid, hApl, stop_track, stop_playing]
  · rw [playingAt, handlePlayRequest_get? cards B.track.id false iB, hB]
    simp [hBpl, play_playing]
  · rw [handlePlayRequest_get? cards B.track.id true iA, hA]
    simp [hid]
  · rw [playingAt, handlePlayRequest_get? cards B.track.id true iB, hB]
    simp [play_playing]
  · intro i C hC hCid
    rw [handlePlayRequest_get? cards B.track.id true i, hC]
    simp [hCid]

/-- Demo track/card fixtures used by concrete witnesses. -/
def demoTrackA : TrackData :=
  ⟨"idA", "trackA", "", 1, 0, false, some "Digit1", 10, none⟩

def demoTrackB : TrackData :=
  ⟨"idB", "trackB", "", 1, 2, false, some "Digit2", 8, none⟩

def demoCardA : CardState := ⟨demoTrackA, 5, true, 10⟩

def demoCardB : CardState := ⟨demoTrackB, 2, false, 8⟩

/-- Witness for claim C2 at the two-card fixture. -/
theorem exclusive_vs_layered_trigger_witness :
    [demoCardA, demoCardB].get? 0 = some demoCardA
    ∧ [demoCardA, demoCardB].get? 1 = some demoCardB
    ∧ demoCardA.track.id ≠ demoCardB.track.id
    ∧ demoCardA.playing = true ∧ demoCardB.playing = false
    ∧ (playingAt (handlePlayRequest [demoCardA, demoCardB] demoCardB.track.id false) 0
        = some false
      ∧ playingAt (handlePlayRequest [demoCardA, demoCardB] demoCardB.track.id false) 1
        = some true)
    ∧ (handlePlayRequest [demoCardA, demoCardB] demoCardB.track.id true).get? 0
        = some demoCardA := by
  have h := exclusive_vs_layered_trigger [demoCardA, demoCardB] 0 1
    demoCardA demoCardB rfl rfl (by decide) rfl rfl
  exact ⟨rfl, rfl, by decide, rfl, rfl, h.1, h.2.1⟩

/-- `code.startsWith('Numpad') && /\d/.test(code)` followed by
`code.replace('Numpad', 'Digit')`, as done both at key-capture time in
`AudioCard` and at lookup time in `handleGlobalKeyDown`. -/
def normalizeKey (code : String) : String :=
  if ("Numpad".data.isPrefixOf code.data ∧ code.data.any Char.isDigit)
  then String.mk ("Digit".data ++ code.data.drop 6) else code

/-- `Partial<TrackData>` restricted to the fields the app ever updates this
way.  A `some` field is present in the partial update. -/
structure TrackUpdates where
  volume : Option ℚ
  startPoint : Option ℚ
  isLooping : Option Bool
  assignedKey : Option (Option String)
  duration : Option ℚ
deriving DecidableEq, Repr

def TrackUpdates.setKey (k : String) : TrackUpdates :=
  ⟨none, none, none, some (some k), none⟩

def TrackUpdates.setVolume (v : ℚ) : TrackUpdates :=
  ⟨some v, none, none, none, none⟩

def TrackUpdates.setStart (t : ℚ) : TrackUpdates :=
  ⟨none, some t, none, none, none⟩

/-- `{ ...item, ...updates }`: present fields of the partial update replace
the item's fields. -/
def applyUpdates (u : TrackUpdates) (t : TrackData) : TrackData :=
  { t with
    volume := u.volume.getD t.volume
    startPoint := u.startPoint.getD t.startPoint
    isLooping := u.isLooping.getD t.isLooping
    assignedKey := u.assignedKey.getD t.assignedKey
    duration := u.duration.getD t.duration }

/-- `handleUpdateTrack` from the `App` component: map over the items,
merging the updates into the item whose id matches (all items are audio). -/
def handleUpdateTrack (id : String) (u : TrackUpdates)
    (items : List TrackData) : List TrackData :=
  items.map fun t => if t.id = id then applyUpdates u t else t

/-- `handleUpdateTrack` as seen through the cards (each card's `track` prop
is the corresponding item). -/
def updateTrackCards (id : String) (u : TrackUpdates)
    (cards : List CardState) : List CardState :=
  cards.map fun c =>
    if c.track.id = id then { c with track := applyUpdates u c.track } else c

/-- The key-capture effect of `AudioCard`: on the next keydown, normalize the
code and call `onUpdate(track.id, { assignedKey: code })`. -/
def assignKey (id : String) (rawCode : String)
    (items : List TrackData) : List TrackData :=
  handleUpdateTrack id (TrackUpdates.setKey (normalizeKey rawCode)) items

/-- Number of items currently holding `k` as their assigned key. -/
def countWithKey (items : List TrackData) (k : String) : ℕ :=
  (items.filter fun t => t.assignedKey = some k).length

/-- Counterexample to claim C1 as stated: with clip `idA` already holding
key `Digit1`, capturing `Digit1` for clip `idB` leaves BOTH clips holding it
(no detach happens), so more than one clip shares the key afterwards. -/
theorem key_assignment_duplicate_cex :
    countWithKey [demoTrackA, demoTrackB] "Digit1" = 1
    ∧ countWithKey (assignKey "idB" "Digit1" [demoTrackA, demoTrackB]) "Digit1" = 2
    ∧ ¬ countWithKey (assignKey "idB" "Digit1" [demoTrackA, demoTrackB]) "Digit1" ≤ 1 := by
  refine ⟨by decide, by decide, by decide⟩

/-- Claim C1 amended: assigning a key to clip `id` sets only that clip's
`assignedKey` (to the normalized code) and leaves every other clip — in
particular a previous holder of the same key — entirely unchanged. -/
theorem assign_key_last_write_only_target (items : List TrackData)
    (id raw : String) (i : ℕ) :
    (assignKey id raw items).get? i =
      (items.get? i).map (fun t =>
        if t.id = id then { t with assignedKey := some (normalizeKey raw) }
        else t) := by
  unfold assignKey handleUpdateTrack
  rw [List.get?_map]
  cases h : items.get? i with
  | none => rfl
  | some t =>
      dsimp only [Option.map]
      by_cases hid : t.id = id
      · rw [if_pos hid, if_pos hid]
        cases t
        rfl
      · rw [if_neg hid, if_neg hid]

/-- A keyboard event as consumed by `handleGlobalKeyDown`: the raw `e.code`,
the shift modifier, and whether `e.target` is a text input or textarea. -/
structure KeyEvent where
  code : String
  shiftKey : Bool
  targetIsInput : Bool
deriving DecidableEq, Repr

/-- The `App` component state touched by the global key handler. -/
structure AppState where
  sessionName : String
  cards : List CardState
  selectedItemId : Option String
deriving DecidableEq, Repr

/-- Space branch: `if (ref && ref.isPlaying()) ref.pause()` over all cards. -/
def pauseAllPlaying (cards : List CardState) : List CardState :=
  cards.map fun c => if c.playing then ClipHandle.pause c else c

/-- ArrowUp/ArrowDown branch: nudge the selected item's volume by 0.05,
clamped to `[0, 1]`. -/
def adjustSelectedVolume (s : AppState) (code : String) : AppState :=
  match s.selectedItemId with
  | none => s
  | some sid =>
    match (s.cards.map (·.track)).find? (fun t => t.id = sid) with
    | none => s
    | some t =>
        let step : ℚ := 1/20
        let delta := if code = "ArrowUp" then step else -step
        let newVol := min 1 (max 0 (t.volume + delta))
        { s with cards := updateTrackCards t.id (TrackUpdates.setVolume newVol) s.cards }

/-- Comma/Period branch: nudge the volume of every currently playing item by
0.05, clamped; a no-op when nothing is playing. -/
def adjustPlayingVolumes (s : AppState) (code : String) : AppState :=
  let step : ℚ := 1/20
  let delta := if code = "Period" then step else -step
  if s.cards.any (·.playing) then
    { s with cards := s.cards.map fun c =>
        if c.playing then
          { c with track :=
              { c.track with volume := min 1 (max 0 (c.track.volume + delta)) } }
        else c }
  else s

/-- `handleGlobalKeyDown` from the `App` component, branch for branch:
input-field guard, Space pauses all, Numpad normalization, selected-item
volume keys, playing-items volume keys, then trigger lookup with
restart-if-playing respectively exclusive/layered play. -/
def handleGlobalKeyDown (e : KeyEvent) (s : AppState) : AppState :=
  if e.targetIsInput then s
  else if e.code = "Space" then { s with cards := pauseAllPlaying s.cards }
  else
    let code := normalizeKey e.code
    if s.selectedItemId.isSome ∧ (code = "ArrowUp" ∨ code = "ArrowDown") then
      adjustSelectedVolume s code
    else if code = "Comma" ∨ code = "Period" then
      adjustPlayingVolumes s code
    else
      match s.cards.find? (fun c => c.track.assignedKey = some code) with
      | none => s
      | some mc =>
          if mc.playing then
            { s with cards := s.cards.map fun c =>
                if c.track.id = mc.track.id
                then ClipHandle.play (ClipHandle.stop c) else c }
          else
            { s with cards := handlePlayRequest s.cards mc.track.id e.shiftKey }

/-- Claim C9: the input-field guard.  A key event whose target is a text
input or textarea makes the global key handler return immediately: the whole
application state (every clip's play state and volume, the selection, the
session name) is unchanged. -/
theorem input_field_guard (e : KeyEvent) (s : AppState)
    (h : e.targetIsInput = true) :
    handleGlobalKeyDown e s = s := by
  unfold handleGlobalKeyDown
  rw [if_pos h]

/-- Witness for claim C9: typing "a" into the session-name field while a clip
is playing changes nothing. -/
theorem input_field_guard_witness :
    (KeyEvent.mk "KeyA" false true).targetIsInput = true
    ∧ handleGlobalKeyDown (KeyEvent.mk "KeyA" false true)
        (AppState.mk "My Set" [demoCardA, demoCardB] none)
      = AppState.mk "My Set" [demoCardA, demoCardB] none :=
  ⟨rfl, input_field_guard (KeyEvent.mk "KeyA" false true)
      (AppState.mk "My Set" [demoCardA, demoCardB] none) rfl⟩

/-- A playing card whose assigned trigger key is the global pause key. -/
def spaceKeyCard : CardState :=
  ⟨⟨"idS", "pad", "", 1, 0, false, some "Space", 10, none⟩, 5, true, 10⟩

/-- Counterexample to claim C3 as stated: a playing clip whose assigned key is
`Space`.  Pressing its own key hits the global-pause branch first: the clip is
merely paused (`playing = false`) and its playhead stays at 5, never reset to
the start cue 0 — `stop()`/`play()` is not invoked. -/
theorem retrigger_space_key_cex :
    spaceKeyCard.track.assignedKey = some "Space"
    ∧ spaceKeyCard.playing = true
    ∧ spaceKeyCard.track.startPoint = 0
    ∧ playingAt (handleGlobalKeyDown (KeyEvent.mk "Space" false false)
        (AppState.mk "set" [spaceKeyCard] none)).cards 0 = some false
    ∧ ((handleGlobalKeyDown (KeyEvent.mk "Space" false false)
        (AppState.mk "set" [spaceKeyCard] none)).cards.get? 0).map (·.currentTime)
        = some 5 := by
  refine ⟨rfl, rfl, rfl, by decide, by decide⟩

/-- Claim C3 amended: pressing a playing clip's own key restarts it —
`stop()` then `play()`, playhead back to the start cue, still playing,
regardless of the modifier — provided the key is not one of the reserved
global shortcuts (`Space`; `Comma`/`Period`; `ArrowUp`/`ArrowDown` while an
item is selected) and the clip is the first one bound to that key. -/
theorem retrigger_restarts_from_cue (s : AppState) (e : KeyEvent)
    (c : CardState)
    (hT : e.targetIsInput = false)
    (hSpace : e.code ≠ "Space")
    (hArrow : ¬(s.selectedItemId.isSome ∧
        (normalizeKey e.code = "ArrowUp" ∨ normalizeKey e.code = "ArrowDown")))
    (hComma : normalizeKey e.code ≠ "Comma")
    (hPeriod : normalizeKey e.code ≠ "Period")
    (hfind : s.cards.find?
        (fun d => d.track.assignedKey = some (normalizeKey e.code)) = some c)
    (hpl : c.playing = true) :
    handleGlobalKeyDown e s =
      { s with cards := s.cards.map fun d =>
          if d.track.id = c.track.id
          then ClipHandle.play (ClipHandle.stop d) else d }
    ∧ (ClipHandle.play (ClipHandle.stop c)).playing = true
    ∧ (ClipHandle.play (ClipHandle.stop c)).currentTime = c.track.startPoint := by
  refine ⟨?_, rfl, ?_⟩
  · unfold handleGlobalKeyDown
    rw [if_neg (by simp [hT]), if_neg (by simp [hSpace])]
    dsimp only
    rw [if_neg hArrow, if_neg (by simp [hComma, hPeriod]), hfind]
    dsimp only
    rw [if_pos hpl]
  · show (ClipHandle.play (ClipHandle.stop c)).currentTime = _
    unfold ClipHandle.play ClipHandle.stop
    dsimp only
    rw [if_neg (lt_irrefl c.track.startPoint)]

/-- A playing card keyed to `KeyA`, for the C3 witness. -/
def keyACard : CardState :=
  ⟨⟨"idK", "loop", "", 1, 2, false, some "KeyA", 10, none⟩, 7, true, 10⟩

/-- Witness for claim C3 (amended) at a concrete playing clip keyed `KeyA`,
pressed with the shift modifier held. -/
theorem retrigger_restarts_from_cue_witness :
    ((AppState.mk "set" [keyACard] none).cards.find?
        (fun d => d.track.assignedKey = some (normalizeKey "KeyA")) = some keyACard)
    ∧ keyACard.playing = true
    ∧ handleGlobalKeyDown (KeyEvent.mk "KeyA" true false)
        (AppState.mk "set" [keyACard] none) =
      { AppState.mk "set" [keyACard] none with
        cards := [keyACard].map fun d =>
          if d.track.id = keyACard.track.id
          then ClipHandle.play (ClipHandle.stop d) else d }
    ∧ (ClipHandle.play (ClipHandle.stop keyACard)).currentTime
        = keyACard.track.startPoint := by
  have h := retrigger_restarts_from_cue (AppState.mk "set" [keyACard] none)
    (KeyEvent.mk "KeyA" true false) keyACard rfl (by decide) (by decide)
    (by decide) (by decide) (by decide) rfl
  exact ⟨by decide, rfl, h.1, h.2.2⟩

/-- State of the decode limiter in `src/utils/audio.ts`: `waiting` is the
`decodeQueue` array (head = front), `active` holds the identities of decodes
in flight (so `activeDecodes = active.length`); `started` and `settled` are
history logs of admissions and of delivered completions, in order. -/
structure QueueState where
  waiting : List ℕ
  active : List ℕ
  started : List ℕ
  settled : List ℕ
deriving DecidableEq, Repr

def MAX_CONCURRENT_DECODES : ℕ := 2

/-- `processQueue`: return unless a slot is free and a task is waiting;
otherwise shift the queue head and start it (`activeDecodes++`). -/
def processQueue (s : QueueState) : QueueState :=
  if MAX_CONCURRENT_DECODES ≤ s.active.length ∨ s.waiting = [] then s
  else
    match s.waiting with
    | [] => s
    | t :: rest => ⟨rest, s.active ++ [t], s.started ++ [t], s.settled⟩

/-- `decodeAudioDataSafely`: push the task onto the queue, then
`processQueue()`. -/
def submitTask (id : ℕ) (s : QueueState) : QueueState :=
  processQueue { s with waiting := s.waiting ++ [id] }

/-- Completion of an in-flight decode: its own callback settles (resolve or
reject), then `finally { activeDecodes--; processQueue(); }`. -/
def completeTask (id : ℕ) (s : QueueState) : QueueState :=
  processQueue { s with active := s.active.erase id, settled := s.settled ++ [id] }

inductive QEvent where
  | submit (id : ℕ)
  | complete (id : ℕ)
deriving DecidableEq, Repr

def stepEv (s : QueueState) : QEvent → QueueState
  | .submit id => submitTask id s
  | .complete id => completeTask id s

/-- An event is admissible: a submission is a fresh task object, a completion
is of a decode actually in flight. -/
def ValidEv (s : QueueState) : QEvent → Prop
  | .submit id => id ∉ s.waiting ∧ id ∉ s.active ∧ id ∉ s.settled
  | .complete id => id ∈ s.active

def runQueue (s : QueueState) : List QEvent → QueueState
  | [] => s
  | e :: es => runQueue (stepEv s e) es

def ValidTrace (s : QueueState) : List QEvent → Prop
  | [] => True
  | e :: es => ValidEv s e ∧ ValidTrace (stepEv s e) es

/-- The ids submitted along a trace, in submission order. -/
def submitsOf (tr : List QEvent) : List ℕ :=
  tr.filterMap fun e => match e with | .submit id => some id | .complete _ => none

def initQ : QueueState := ⟨[], [], [], []⟩

/-- Inductive invariant of the limiter relative to the submissions `subs`
seen so far: no more than 2 in flight, both slots busy whenever anyone waits,
admissions happen in exactly submission order, and every submission is in
exactly one of settled/active/waiting. -/
def QInv (subs : List ℕ) (s : QueueState) : Prop :=
  s.active.length ≤ MAX_CONCURRENT_DECODES
  ∧ (s.waiting ≠ [] → s.active.length = MAX_CONCURRENT_DECODES)
  ∧ s.started ++ s.waiting = subs
  ∧ (s.settled ++ s.active ++ s.waiting).Perm subs

theorem processQueue_stuck (s : QueueState)
    (h : MAX_CONCURRENT_DECODES ≤ s.active.length ∨ s.waiting = []) :
    processQueue s = s := by
  unfold processQueue
  rw [if_pos h]

theorem processQueue_admits (s : QueueState) (t : ℕ) (rest : List ℕ)
    (hw : s.waiting = t :: rest)
    (ha : s.active.length < MAX_CONCURRENT_DECODES) :
    processQueue s = ⟨rest, s.active ++ [t], s.started ++ [t], s.settled⟩ := by
  unfold processQueue
  rw [if_neg (by simp [hw, not_le.mpr ha])]
  rw [hw]

theorem QInv_submitTask (subs : List ℕ) (s : QueueState) (id : ℕ)
    (h : QInv subs s) : QInv (subs ++ [id]) (submitTask id s) := by
  obtain ⟨h1, h2, h3, h4⟩ := h
  unfold submitTask
  by_cases hfull : MAX_CONCURRENT_DECODES ≤ s.active.length
  · rw [processQueue_stuck { s with waiting := s.waiting ++ [id] }
      (Or.inl hfull)]
    refine ⟨h1, fun _ => le_antisymm h1 hfull, ?_, ?_⟩
    · rw [← List.append_assoc, h3]
    · have e1 : s.settled ++ s.active ++ (s.waiting ++ [id])
          = (s.settled ++ s.active ++ s.waiting) ++ [id] := by
        simp [List.append_assoc]
      rw [e1]
      exact h4.append_right [id]
  · have hwe : s.waiting = [] := by
      by_contra hne
      exact hfull (le_of_eq (h2 hne).symm)
    have hlt : s.active.length < MAX_CONCURRENT_DECODES := lt_of_not_le hfull
    rw [processQueue_admits { s with waiting := s.waiting ++ [id] } id []
      (by simp [hwe]) hlt]
    refine ⟨by simpa using hlt, by simp, ?_, ?_⟩
    · have hst : s.started = subs := by simpa [hwe] using h3
      simp [hst]
    · have h4' : (s.settled ++ s.active).Perm subs := by
        simpa [hwe] using h4
      have e2 : s.settled ++ (s.active ++ [id]) ++ ([] : List ℕ)
          = (s.settled ++ s.active) ++ [id] := by
        simp [List.append_assoc]
      rw [e2]
      exact h4'.append_right [id]

theorem QInv_completeTask (subs : List ℕ) (s : QueueState) (id : ℕ)
    (h : QInv subs s) (hid : id ∈ s.active) : QInv subs (completeTask id s) := by
  obtain ⟨h1, h2, h3, h4⟩ := h
  unfold completeTask
  have herase : (s.active.erase id).length = s.active.length - 1 :=
    List.length_erase_of_mem hid
  have hperm_active : s.active.Perm (id :: s.active.erase id) :=
    List.perm_cons_erase hid
  cases hw : s.waiting with
  | nil =>
      rw [processQueue_stuck
        ⟨[], s.active.erase id, s.started, s.settled ++ [id]⟩ (Or.inr rfl)]
      refine ⟨?_, by simp [hw], by simpa [hw] using h3, ?_⟩
      · simpa [herase] using le_trans (Nat.sub_le _ _) h1
      · have h4' : (s.settled ++ s.active).Perm subs := by
          simpa [hw] using h4
        have e3 : (s.settled ++ [id]) ++ s.active.erase id ++ ([] : List ℕ)
            = s.settled ++ (id :: s.active.erase id) := by
          simp [List.append_assoc]
        rw [e3]
        exact (List.Perm.append_left s.settled hperm_active.symm).trans h4'
  | cons w rest =>
      have hfull : s.active.length = MAX_CONCURRENT_DECODES := h2 (by simp [hw])
      have hlt : (s.active.erase id).length < MAX_CONCURRENT_DECODES := by
        rw [herase, hfull]
        exact Nat.sub_lt (by norm_num [MAX_CONCURRENT_DECODES]) one_pos
      rw [processQueue_admits
        ⟨w :: rest, s.active.erase id, s.started, s.settled ++ [id]⟩
        w rest rfl hlt]
      refine ⟨?_, fun _ => ?_, ?_, ?_⟩
      · simp only [List.length_append, List.length_singleton]
        omega
      · simp only [List.length_append, List.length_singleton]
        omega
      · have e4 : (s.started ++ [w]) ++ rest = s.started ++ (w :: rest) := by
          simp
        rw [e4, ← hw]
        exact h3
      · have e5 : (s.settled ++ [id]) ++ (s.active.erase id ++ [w]) ++ rest
            = s.settled ++ (id :: (s.active.erase id ++ (w :: rest))) := by
          simp [List.append_assoc]
        have p2 : (id :: (s.active.erase id ++ (w :: rest))).Perm
            (s.active ++ (w :: rest)) := by
          have hp := hperm_active.append_right (w :: rest)
          simpa using hp.symm
        have h4'' : (s.settled ++ (s.active ++ (w :: rest))).Perm subs := by
          have e6 : s.settled ++ s.active ++ s.waiting
              = s.settled ++ (s.active ++ (w :: rest)) := by
            rw [hw, List.append_assoc]
          rw [← e6]
          exact h4
        rw [e5]
        exact (List.Perm.append_left s.settled p2).trans h4''

theorem QInv_run (tr : List QEvent) : ∀ (s : QueueState) (subs : List ℕ),
    QInv subs s → ValidTrace s tr →
    QInv (subs ++ submitsOf tr) (runQueue s tr) := by
  induction tr with
  | nil =>
      intro s subs h _
      simpa [runQueue, submitsOf] using h
  | cons e es ih =>
      intro s subs h hv
      obtain ⟨hve, hvt⟩ := hv
      cases e with
      | submit id =>
          have h' := QInv_submitTask subs s id h
          have hrec := ih (stepEv s (.submit id)) (subs ++ [id]) h' hvt
          simpa [runQueue, submitsOf, List.filterMap_cons, List.append_assoc]
            using hrec
      | complete id =>
          have h' := QInv_completeTask subs s id h hve
          have hrec := ih (stepEv s (.complete id)) subs h' hvt
          simpa [runQueue, submitsOf, List.filterMap_cons] using hrec

theorem QInv_mem_subs (subs : List ℕ) (s : QueueState) (h : QInv subs s)
    (x : ℕ) (hx : x ∈ s.waiting ∨ x ∈ s.active ∨ x ∈ s.settled) :
    x ∈ subs := by
  obtain ⟨-, -, -, h4⟩ := h
  have hmem : x ∈ s.settled ++ s.active ++ s.waiting := by
    rcases hx with hx | hx | hx <;> simp [List.mem_append, hx]
  exact h4.mem_iff.mp hmem

theorem submits_phase (ids : List ℕ) : ∀ (s : QueueState) (subs : List ℕ),
    QInv subs s → ids.Nodup → (∀ x ∈ ids, x ∉ subs) →
    ValidTrace s (ids.map QEvent.submit) := by
  induction ids with
  | nil =>
      intro s subs _ _ _
      exact trivial
  | cons x rest ih =>
      intro s subs h hnd hfresh
      have hxfresh : x ∉ subs := hfresh x (List.mem_cons_self x rest)
      have hve : ValidEv s (.submit x) := by
        refine ⟨fun hw => hxfresh ?_, fun ha => hxfresh ?_, fun hs => hxfresh ?_⟩
        · exact QInv_mem_subs subs s h x (Or.inl hw)
        · exact QInv_mem_subs subs s h x (Or.inr (Or.inl ha))
        · exact QInv_mem_subs subs s h x (Or.inr (Or.inr hs))
      refine ⟨hve, ?_⟩
      apply ih (stepEv s (.submit x)) (subs ++ [x])
        (QInv_submitTask subs s x h) (List.Nodup.of_cons hnd)
      intro y hy hymem
      rcases List.mem_append.mp hymem with hys | hyx
      · exact hfresh y (List.mem_cons_of_mem x hy) hys
      · have hyx' : y = x := by simpa using hyx
        subst hyx'
        exact (List.nodup_cons.mp hnd).1 hy

/-- A fair completion schedule: repeatedly complete the oldest in-flight
decode until the limiter is empty (fuelled recursion on the total number of
outstanding tasks). -/
def drainAll : ℕ → QueueState → List QEvent
  | 0, _ => []
  | Nat.succ n, s =>
    match s.active with
    | [] => []
    | a :: _ => QEvent.complete a :: drainAll n (completeTask a s)

theorem completeTask_measure (s : QueueState) (id : ℕ) (hid : id ∈ s.active) :
    (completeTask id s).active.length + (completeTask id s).waiting.length + 1
      = s.active.length + s.waiting.length := by
  unfold completeTask
  have herase := List.length_erase_of_mem hid
  have hpos : 0 < s.active.length := List.length_pos.mpr (List.ne_nil_of_mem hid)
  by_cases hc : MAX_CONCURRENT_DECODES ≤ (s.active.erase id).length
      ∨ s.waiting = []
  · rw [processQueue_stuck
      ⟨s.waiting, s.active.erase id, s.started, s.settled ++ [id]⟩ hc]
    simp only
    omega
  · push_neg at hc
    obtain ⟨hc1, hc2⟩ := hc
    obtain ⟨w, rest, hw⟩ := List.exists_cons_of_ne_nil hc2
    rw [processQueue_admits
      ⟨s.waiting, s.active.erase id, s.started, s.settled ++ [id]⟩
      w rest hw hc1]
    simp only [List.length_append, List.length_singleton, hw, List.length_cons,
      List.length_nil]
    omega

theorem drain_ok (n : ℕ) : ∀ (s : QueueState) (subs : List ℕ), QInv subs s →
    s.active.length + s.waiting.length ≤ n →
    ValidTrace s (drainAll n s)
    ∧ (runQueue s (drainAll n s)).active = []
    ∧ (runQueue s (drainAll n s)).waiting = [] := by
  induction n with
  | zero =>
      intro s subs _ hm
      have ha : s.active = [] := List.length_eq_zero.mp (by omega)
      have hw : s.waiting = [] := List.length_eq_zero.mp (by omega)
      exact ⟨trivial, ha, hw⟩
  | succ n ih =>
      intro s subs h hm
      cases hact : s.active with
      | nil =>
          have hw : s.waiting = [] := by
            by_contra hne
            have h2 := h.2.1 hne
            rw [hact] at h2
            simp [MAX_CONCURRENT_DECODES] at h2
          simp only [drainAll, hact]
          exact ⟨trivial, hact, hw⟩
      | cons a as =>
          have hmem : a ∈ s.active := by
            rw [hact]
            exact List.mem_cons_self a as
          have h' := QInv_completeTask subs s a h hmem
          have hm' : (completeTask a s).active.length
              + (completeTask a s).waiting.length ≤ n := by
            have := completeTask_measure s a hmem
            omega
          obtain ⟨hvt, hact', hw'⟩ := ih (completeTask a s) subs h' hm'
          simp only [drainAll, hact]
          exact ⟨⟨hmem, hvt⟩, hact', hw'⟩

theorem runQueue_append (t1 : List QEvent) : ∀ (s : QueueState)
    (t2 : List QEvent), runQueue s (t1 ++ t2) = runQueue (runQueue s t1) t2 := by
  induction t1 with
  | nil => intro s t2; rfl
  | cons e es ih => intro s t2; exact ih (stepEv s e) t2

theorem ValidTrace_append (t1 : List QEvent) : ∀ (s : QueueState)
    (t2 : List QEvent), ValidTrace s t1 → ValidTrace (runQueue s t1) t2 →
    ValidTrace s (t1 ++ t2) := by
  induction t1 with
  | nil => intro s t2 _ h2; exact h2
  | cons e es ih =>
      intro s t2 h1 h2
      exact ⟨h1.1, ih (stepEv s e) t2 h1.2 h2⟩

theorem submitsOf_map (ids : List ℕ) : submitsOf (ids.map QEvent.submit) = ids := by
  induction ids with
  | nil => rfl
  | cons x rest ih => simpa [submitsOf, List.filterMap_cons] using ih

theorem submitsOf_drainAll (n : ℕ) : ∀ s : QueueState,
    submitsOf (drainAll n s) = [] := by
  induction n with
  | zero => intro s; rfl
  | succ n ih =>
      intro s
      cases hact : s.active with
      | nil => simp [drainAll, hact, submitsOf]
      | cons a as =>
          simp only [drainAll, hact, submitsOf, List.filterMap_cons]
          exact ih (completeTask a s)

theorem QInv_initQ : QInv [] initQ :=
  ⟨by simp [initQ, MAX_CONCURRENT_DECODES], by simp [initQ], rfl, by simp [initQ]⟩

/-- `completeTask` when someone is waiting: under the queue invariant, the
completion settles exactly the finished task and admits exactly the FIFO
head of the waiting queue. -/
theorem completeTask_admits (subs : List ℕ) (s : QueueState) (id w : ℕ)
    (rest : List ℕ) (h : QInv subs s) (hw : s.waiting = w :: rest)
    (hid : id ∈ s.active) :
    completeTask id s =
      ⟨rest, s.active.erase id ++ [w], s.started ++ [w], s.settled ++ [id]⟩ := by
  have hfull : s.active.length = MAX_CONCURRENT_DECODES := h.2.1 (by simp [hw])
  have herase := List.length_erase_of_mem hid
  have hlt : (s.active.erase id).length < MAX_CONCURRENT_DECODES := by
    rw [herase, hfull]
    norm_num [MAX_CONCURRENT_DECODES]
  unfold completeTask
  rw [processQueue_admits
    ⟨s.waiting, s.active.erase id, s.started, s.settled ++ [id]⟩ w rest hw hlt]

/-- The submissions of `ids` followed by the fair completion schedule. -/
def fullTrace (ids : List ℕ) : List QEvent :=
  let s1 := runQueue initQ (ids.map QEvent.submit)
  ids.map QEvent.submit ++ drainAll (s1.active.length + s1.waiting.length) s1

/-- Claim C4: decode-queue admission discipline.  Along every admissible
event sequence, at most 2 decodes are ever active, tasks are started in FIFO
submission order (`started ++ waiting` is exactly the submission sequence),
and a completion while tasks wait settles exactly the finished task and
admits exactly the queue head.  Moreover, for any set of distinct submitted
tasks, the run in which every started decode eventually completes is
admissible and ends with all tasks started in submission order and each
settled exactly once. -/
theorem decode_queue_admission_discipline :
    (∀ tr : List QEvent, ValidTrace initQ tr →
        (runQueue initQ tr).active.length ≤ MAX_CONCURRENT_DECODES
      ∧ (runQueue initQ tr).started ++ (runQueue initQ tr).waiting = submitsOf tr
      ∧ ∀ id w rest, (runQueue initQ tr).waiting = w :: rest →
          id ∈ (runQueue initQ tr).active →
          completeTask id (runQueue initQ tr) =
            ⟨rest, (runQueue initQ tr).active.erase id ++ [w],
              (runQueue initQ tr).started ++ [w],
              (runQueue initQ tr).settled ++ [id]⟩)
    ∧ (∀ ids : List ℕ, ids.Nodup →
        ValidTrace initQ (fullTrace ids)
      ∧ (runQueue initQ (fullTrace ids)).active = []
      ∧ (runQueue initQ (fullTrace ids)).waiting = []
      ∧ (runQueue initQ (fullTrace ids)).started = ids
      ∧ ∀ id ∈ ids, (runQueue initQ (fullTrace ids)).settled.count id = 1) := by
  constructor
  · intro tr hv
    have hq := QInv_run tr initQ [] QInv_initQ hv
    simp only [List.nil_append] at hq
    refine ⟨hq.1, hq.2.2.1, ?_⟩
    intro id w rest hw hid
    exact completeTask_admits (submitsOf tr) (runQueue initQ tr) id w rest hq hw hid
  · intro ids hnd
    have hvsub : ValidTrace initQ (ids.map QEvent.submit) :=
      submits_phase ids initQ [] QInv_initQ hnd (by simp)
    have hqsub : QInv ids (runQueue initQ (ids.map QEvent.submit)) := by
      have := QInv_run (ids.map QEvent.submit) initQ [] QInv_initQ hvsub
      simpa [submitsOf_map] using this
    obtain ⟨hvd, hact, hwait⟩ :=
      drain_ok ((runQueue initQ (ids.map QEvent.submit)).active.length
          + (runQueue initQ (ids.map QEvent.submit)).waiting.length)
        (runQueue initQ (ids.map QEvent.submit)) ids hqsub le_rfl
    have hvfull : ValidTrace initQ (fullTrace ids) := by
      unfold fullTrace
      exact ValidTrace_append (ids.map QEvent.submit) initQ _ hvsub hvd
    have hrun : runQueue initQ (fullTrace ids)
        = runQueue (runQueue initQ (ids.map QEvent.submit))
            (drainAll ((runQueue initQ (ids.map QEvent.submit)).active.length
              + (runQueue initQ (ids.map QEvent.submit)).waiting.length)
              (runQueue initQ (ids.map QEvent.submit))) := by
      unfold fullTrace
      exact runQueue_append (ids.map QEvent.submit) initQ _
    have hqfull : QInv ids (runQueue initQ (fullTrace ids)) := by
      have := QInv_run (fullTrace ids) initQ [] QInv_initQ hvfull
      have hsub : submitsOf (fullTrace ids) = ids := by
        unfold fullTrace
        simp only [submitsOf, List.filterMap_append]
        show submitsOf (ids.map QEvent.submit) ++ submitsOf (drainAll _ _) = ids
        rw [submitsOf_map, submitsOf_drainAll]
        simp
      rw [hsub] at this
      simpa using this
    have hact2 : (runQueue initQ (fullTrace ids)).active = [] := by
      rw [hrun]; exact hact
    have hwait2 : (runQueue initQ (fullTrace ids)).waiting = [] := by
      rw [hrun]; exact hwait
    have hstarted : (runQueue initQ (fullTrace ids)).started = ids := by
      have h3 := hqfull.2.2.1
      rw [hwait2] at h3
      simpa using h3
    refine ⟨hvfull, hact2, hwait2, hstarted, ?_⟩
    intro id hidmem
    have hperm : (runQueue initQ (fullTrace ids)).settled.Perm ids := by
      have h4 := hqfull.2.2.2
      rw [hact2, hwait2] at h4
      simpa using h4
    rw [hperm.count_eq]
    exact List.count_eq_one_of_mem hnd hidmem

/-- Witness for claim C4: five distinct tasks with two slots — the fair run
drains fully, starts them in order 1..5, and settles task 3 exactly once. -/
theorem decode_queue_admission_discipline_witness :
    ([1, 2, 3, 4, 5] : List ℕ).Nodup
    ∧ (runQueue initQ (fullTrace [1, 2, 3, 4, 5])).active = []
    ∧ (runQueue initQ (fullTrace [1, 2, 3, 4, 5])).started = [1, 2, 3, 4, 5]
    ∧ (runQueue initQ (fullTrace [1, 2, 3, 4, 5])).settled.count 3 = 1 := by
  have h := decode_queue_admission_discipline.2 [1, 2, 3, 4, 5] (by decide)
  exact ⟨by decide, h.2.1, h.2.2.2.1, h.2.2.2.2 3 (by decide)⟩

/-- The `DmxPanel` state: `selectedChannel` (1-based) and the 512-entry
`dmxLevels` array. -/
structure DmxPanelState where
  selectedChannel : ℤ
  dmxLevels : List ℤ
deriving DecidableEq, Repr

/-- `createEmptyLevels`: `new Array(512).fill(0)`. -/
def createEmptyLevels : List ℤ := List.replicate 512 0

def initDmxPanel : DmxPanelState := ⟨1, createEmptyLevels⟩

/-- `handleChannelChange`: clamp the requested channel into `[1, 512]`. -/
def handleChannelChange (value : ℤ) (s : DmxPanelState) : DmxPanelState :=
  { s with selectedChannel := min 512 (max 1 value) }

/-- `handleLevelChange`: clamp the value into `[0, 255]` and write it at
`selectedChannel - 1` in a copy of the levels array. -/
def handleLevelChange (value : ℤ) (s : DmxPanelState) : DmxPanelState :=
  let next := min 255 (max 0 value)
  { s with dmxLevels := s.dmxLevels.set (s.selectedChannel - 1).toNat next }

/-- Claim C5: channel-write bounds.  Selecting any integer channel `i` and
writing any integer value `v` keeps the levels array at 512 entries, writes
the value clamped to `[0, 255]` at exactly one in-range position, leaves
every other position untouched, and stores a selected channel in `[1, 512]`.
The operation is a total function (never throws). -/
theorem channel_write_bounds (s : DmxPanelState) (i v : ℤ)
    (hlen : s.dmxLevels.length = 512) :
    (handleLevelChange v (handleChannelChange i s)).dmxLevels.length = 512
    ∧ (∃ j : ℕ, j < 512 ∧
        (handleLevelChange v (handleChannelChange i s)).dmxLevels.get? j
          = some (min 255 (max 0 v))
        ∧ ∀ m : ℕ, m ≠ j →
            (handleLevelChange v (handleChannelChange i s)).dmxLevels.get? m
              = s.dmxLevels.get? m)
    ∧ 0 ≤ min 255 (max 0 v) ∧ min 255 (max 0 v) ≤ 255
    ∧ 1 ≤ (handleLevelChange v (handleChannelChange i s)).selectedChannel
    ∧ (handleLevelChange v (handleChannelChange i s)).selectedChannel ≤ 512 := by
  have h1 : (1 : ℤ) ≤ min 512 (max 1 i) := le_min (by norm_num) (le_max_left 1 i)
  have h2 : min 512 (max 1 i) ≤ 512 := min_le_left _ _
  have hj : (min 512 (max 1 i) - 1).toNat < 512 := by omega
  refine ⟨?_, ⟨(min 512 (max 1 i) - 1).toNat, hj, ?_, ?_⟩, ?_, ?_, h1, h2⟩
  · show (s.dmxLevels.set _ _).length = 512
    rw [List.length_set, hlen]
  · show (s.dmxLevels.set (min 512 (max 1 i) - 1).toNat _).get? _ = _
    exact List.get?_set_eq_of_lt _ (by rw [hlen]; exact hj)
  · intro m hm
    show (s.dmxLevels.set (min 512 (max 1 i) - 1).toNat _).get? m = _
    exact List.get?_set_ne _ s.dmxLevels (Ne.symm hm)
  · exact le_min (by norm_num) (le_max_left 0 v)
  · exact min_le_left _ _

/-- Witness for claim C5: `setChannel(-1, 300)` on the initial panel clamps
to channel 1 (index 0) and value 255; the array keeps 512 entries. -/
theorem channel_write_bounds_witness :
    initDmxPanel.dmxLevels.length = 512
    ∧ (handleLevelChange 300 (handleChannelChange (-1) initDmxPanel)).dmxLevels.length
        = 512
    ∧ 1 ≤ (handleLevelChange 300 (handleChannelChange (-1) initDmxPanel)).selectedChannel := by
  have hlen : initDmxPanel.dmxLevels.length = 512 := by
    show (List.replicate 512 (0 : ℤ)).length = 512
    exact List.length_replicate 512 0
  have h := channel_write_bounds initDmxPanel (-1) 300 hlen
  exact ⟨hlen, h.1, h.2.2.2.2.1⟩

/-- `handleScrub` from `AudioCard`: when a duration is known, move the
playhead to `clamp(0, 1, (clientX - rect.left) / rect.width) * duration`. -/
def handleScrub (clientX rectLeft rectWidth : ℚ) (c : CardState) : CardState :=
  if c.duration ≠ 0 then
    let x := clientX - rectLeft
    let p := max 0 (min 1 (x / rectWidth))
    { c with currentTime := p * c.duration }
  else c

/-- `handleSetStartPoint` (the SET CUE button): store the current playhead
as the track's start point via `onUpdate(track.id, { startPoint: newStart })`. -/
def handleSetStartPoint (c : CardState) : CardState :=
  { c with track := { c.track with startPoint := c.currentTime } }

/-- A stopped card with a 10-second clip, playhead at 3. -/
def cueCard : CardState := ⟨⟨"idQ", "q", "", 1, 0, false, none, 10, none⟩, 3, false, 10⟩

/-- Counterexample to claim C6 as stated: scrubbing to the far right edge
(`clientX - left = width`) puts the playhead at exactly `duration`, and SET
CUE then stores a start cue equal to `duration` — not strictly below it, so
the stored cue is not clamped into `[0, duration)`. -/
theorem startcue_at_duration_cex :
    cueCard.track.duration = 10
    ∧ (handleSetStartPoint (handleScrub 100 0 100 cueCard)).track.startPoint = 10
    ∧ ¬ ((handleSetStartPoint (handleScrub 100 0 100 cueCard)).track.startPoint
          < (handleSetStartPoint (handleScrub 100 0 100 cueCard)).track.duration) := by
  refine ⟨rfl, ?_, ?_⟩ <;>
    norm_num [handleScrub, handleSetStartPoint, cueCard]

/-- Claim C6 amended: the cue setter stores the current playhead, which a
scrub constrains to the closed interval `[0, duration]` (inclusive of
`duration`); immediately after setting, the playhead equals the stored cue in
every play state, not only when stopped. -/
theorem startcue_setter_amended (c : CardState)
    (clientX rectLeft rectWidth : ℚ) (hd : 0 < c.duration) :
    0 ≤ (handleSetStartPoint
          (handleScrub clientX rectLeft rectWidth c)).track.startPoint
    ∧ (handleSetStartPoint
          (handleScrub clientX rectLeft rectWidth c)).track.startPoint ≤ c.duration
    ∧ (handleSetStartPoint (handleScrub clientX rectLeft rectWidth c)).currentTime
        = (handleSetStartPoint
            (handleScrub clientX rectLeft rectWidth c)).track.startPoint := by
  have hscrub : handleScrub clientX rectLeft rectWidth c =
      { c with currentTime := (max 0 (min 1 ((clientX - rectLeft) / rectWidth))
          * c.duration) } := by
    rw [handleScrub, if_pos hd.ne']
  have hp0 : (0 : ℚ) ≤ max 0 (min 1 ((clientX - rectLeft) / rectWidth)) :=
    le_max_left 0 _
  have hp1 : max 0 (min 1 ((clientX - rectLeft) / rectWidth)) ≤ 1 :=
    max_le (by norm_num) (min_le_left 1 _)
  refine ⟨?_, ?_, rfl⟩
  · rw [hscrub]
    exact mul_nonneg hp0 hd.le
  · rw [hscrub]
    show max 0 (min 1 ((clientX - rectLeft) / rectWidth)) * c.duration ≤ c.duration
    calc max 0 (min 1 ((clientX - rectLeft) / rectWidth)) * c.duration
        ≤ 1 * c.duration := mul_le_mul_of_nonneg_right hp1 hd.le
      _ = c.duration := one_mul _

/-- Witness for claim C6 (amended) at a concrete card and scrub. -/
theorem startcue_setter_amended_witness :
    (0 : ℚ) < cueCard.duration
    ∧ 0 ≤ (handleSetStartPoint (handleScrub 50 0 100 cueCard)).track.startPoint
    ∧ (handleSetStartPoint (handleScrub 50 0 100 cueCard)).track.startPoint
        ≤ cueCard.duration := by
  have h := startcue_setter_amended cueCard 50 0 100 (by norm_num [cueCard])
  exact ⟨by norm_num [cueCard], h.1, h.2.1⟩

/-- A persisted track entry of a session document (`SavedSessionTrack`);
`none` marks a field absent from the JSON. -/
structure SavedTrack where
  id : Option String
  name : String
  volume : Option ℚ
  startPoint : Option ℚ
  isLooping : Option Bool
  assignedKey : Option (Option String)
  path : Option String
deriving DecidableEq, Repr

/-- A parsed session document (`SavedSession`): `items = none` models a
legacy v1 document with no `items` array at all. -/
structure SessionDoc where
  name : Option String
  items : Option (List SavedTrack)
deriving DecidableEq, Repr

/-- Outcome of `handleLoadSession`: the new session name, the reconstructed
items, whether `setItems` ran, and whether the legacy-format warning
(`alert`) was shown. -/
structure LoadResult where
  sessionName : String
  items : List TrackData
  itemsReplaced : Bool
  degradedAlert : Bool
deriving Repr

/-- Reconstruction of one item in `handleLoadSession`: `item.id ||
generateId()`, `fileUrl` from `path` via `convertFileSrc` (parameter `cfs`),
`volume ?? 0.8`, `startPoint ?? 0`, `isLooping ?? false`,
`assignedKey ?? null`, `duration` reset to 0. -/
def loadItem (genId : String) (cfs : String → String) (it : SavedTrack) :
    TrackData :=
  { id := match it.id with
          | some s => if s = "" then genId else s
          | none => genId
    name := it.name
    fileUrl := match it.path with
               | some p => cfs p
               | none => ""
    volume := it.volume.getD (4/5)
    startPoint := it.startPoint.getD 0
    isLooping := it.isLooping.getD false
    assignedKey := it.assignedKey.getD none
    duration := 0
    path := it.path }

/-- `session.items.map(...)` with a fresh generated id per position. -/
def loadItems (genId : ℕ → String) (cfs : String → String) :
    ℕ → List SavedTrack → List TrackData
  | _, [] => []
  | i, it :: rest => loadItem (genId i) cfs it :: loadItems genId cfs (i + 1) rest

/-- `handleLoadSession` on a parsed document: set the session name
(`session.name || "Loaded Session"`), then either reconstruct the items or —
when the document has no `items` array — show the legacy-format warning and
keep going without replacing the items. -/
def handleLoadSession (genId : ℕ → String) (cfs : String → String)
    (doc : SessionDoc) : LoadResult :=
  let name := match doc.name with
              | some n => if n = "" then "Loaded Session" else n
              | none => "Loaded Session"
  match doc.items with
  | some its => ⟨name, loadItems genId cfs 0 its, true, false⟩
  | none => ⟨name, [], false, true⟩

theorem loadItems_get? (genId : ℕ → String) (cfs : String → String)
    (its : List SavedTrack) : ∀ (k i : ℕ),
    (loadItems genId cfs k its).get? i
      = (its.get? i).map (loadItem (genId (k + i)) cfs) := by
  induction its with
  | nil => intro k i; rfl
  | cons it rest ih =>
      intro k i
      cases i with
      | zero => simp [loadItems]
      | succ i =>
          have := ih (k + 1) i
          simpa [loadItems, Nat.add_assoc, Nat.add_comm 1 i] using this

/-- Claim C7: session-loader contract.  A document with no `items` array is
surfaced as a degraded-load warning without replacing the items (no thrown
failure: the loader is total); a document with items reconstructs them
one-for-one in order; and a reconstructed item defaults missing `volume` to
0.8, `startPoint` to 0, `isLooping` to `false` and `assignedKey` to null. -/
theorem session_loader_contract (genId : ℕ → String) (cfs : String → String)
    (doc : SessionDoc) :
    (doc.items = none →
        (handleLoadSession genId cfs doc).degradedAlert = true
      ∧ (handleLoadSession genId cfs doc).itemsReplaced = false
      ∧ (handleLoadSession genId cfs doc).items = [])
    ∧ (∀ its, doc.items = some its →
        (handleLoadSession genId cfs doc).degradedAlert = false
      ∧ (handleLoadSession genId cfs doc).itemsReplaced = true
      ∧ ∀ i : ℕ, (handleLoadSession genId cfs doc).items.get? i
          = (its.get? i).map (loadItem (genId i) cfs))
    ∧ (∀ g it, it.volume = none → (loadItem g cfs it).volume = 4/5)
    ∧ (∀ g it, it.startPoint = none → (loadItem g cfs it).startPoint = 0)
    ∧ (∀ g it, it.isLooping = none → (loadItem g cfs it).isLooping = false)
    ∧ (∀ g it, it.assignedKey = none → (loadItem g cfs it).assignedKey = none) := by
  refine ⟨?_, ?_, ?_, ?_, ?_, ?_⟩
  · intro h
    simp [handleLoadSession, h]
  · intro its h
    refine ⟨by simp [handleLoadSession, h], by simp [handleLoadSession, h], ?_⟩
    intro i
    have hrw : (handleLoadSession genId cfs doc).items = loadItems genId cfs 0 its := by
      simp [handleLoadSession, h]
    rw [hrw]
    simpa using loadItems_get? genId cfs its 0 i
  · intro g it h
    simp [loadItem, h]
  · intro g it h
    simp [loadItem, h]
  · intro g it h
    simp [loadItem, h]
  · intro g it h
    simp [loadItem, h]

/-- Witness for claim C7: a legacy document (no `items`) warns without
aborting, and an item with all optional fields missing gets the documented
defaults. -/
theorem session_loader_contract_witness :
    (SessionDoc.mk none none).items = none
    ∧ (handleLoadSession (fun _ => "gen") (fun p => p)
        (SessionDoc.mk none none)).degradedAlert = true
    ∧ (SavedTrack.mk none "kick" none none none none none).volume = none
    ∧ (loadItem "gen" (fun p => p)
        (SavedTrack.mk none "kick" none none none none none)).volume = 4/5
    ∧ (loadItem "gen" (fun p => p)
        (SavedTrack.mk none "kick" none none none none none)).isLooping = false := by
  have h := session_loader_contract (fun _ => "gen") (fun p => p)
    (SessionDoc.mk none none)
  exact ⟨rfl, (h.1 rfl).1,
    rfl,
    h.2.2.1 "gen" (SavedTrack.mk none "kick" none none none none none) rfl,
    h.2.2.2.2.1 "gen" (SavedTrack.mk none "kick" none none none none none) rfl⟩

/-- `SerialportOptions` from `src/utils/serialPlugin.ts`; optional fields are
`none` when the caller does not supply them. -/
structure SerialportOptions where
  path : String
  baudRate : ℕ
  dataBits : Option String
  flowControl : Option String
  parity : Option String
  stopBits : Option String
  timeout : Option ℕ
deriving DecidableEq, Repr

/-- The `SerialPort` constructor: `{ dataBits: "Eight", flowControl: "None",
parity: "None", stopBits: "One", timeout: 200, ...options }` — caller-supplied
fields override the defaults. -/
def SerialPort.mkOptions (options : SerialportOptions) : SerialportOptions :=
  { path := options.path
    baudRate := options.baudRate
    dataBits := some (options.dataBits.getD "Eight")
    flowControl := some (options.flowControl.getD "None")
    parity := some (options.parity.getD "None")
    stopBits := some (options.stopBits.getD "One")
    timeout := some (options.timeout.getD 200) }

/-- Claim C8, evaluated at the failing input: constructing a `SerialPort`
with only `path` and `baudRate` (250000) yields 8 data bits, no parity and no
flow control as claimed, but `stopBits` defaults to `"One"`, not the `"Two"`
required by DMX-512 (8N2) and stated by the in-app text. -/
theorem serial_default_stopbits_one :
    SerialPort.mkOptions ⟨"/dev/ttyUSB0", 250000, none, none, none, none, none⟩
      = ⟨"/dev/ttyUSB0", 250000, some "Eight", some "None", some "None",
          some "One", some 200⟩
    ∧ (SerialPort.mkOptions
        ⟨"/dev/ttyUSB0", 250000, none, none, none, none, none⟩).stopBits
      ≠ some "Two" := by
  exact ⟨rfl, by decide⟩

/-- Initial `lastVolume` state of `VolumeControl`: `useState(1)`. -/
def initLastVolume : ℚ := 1

/-- `toggleMute` from `VolumeControl`: returns the `(volume, lastVolume)`
pair after a click.  If the volume is positive it is remembered and muted to
0; otherwise the volume becomes `lastVolume || 0.8` (the JS `||` falls back
only when `lastVolume` is 0). -/
def toggleMute (volume lastVolume : ℚ) : ℚ × ℚ :=
  if 0 < volume then (0, volume)
  else ((if lastVolume = 0 then 4/5 else lastVolume), lastVolume)

/-- Counterexample to claim C10 as stated: unmuting a clip whose volume is 0
when no non-zero volume was ever remembered restores 1 (the initial
`lastVolume`), not the claimed 0.8. -/
theorem mute_default_restore_cex :
    (toggleMute 0 initLastVolume).1 = 1
    ∧ (toggleMute 0 initLastVolume).1 ≠ 4/5 := by
  refine ⟨?_, ?_⟩ <;> norm_num [toggleMute, initLastVolume]

/-- Claim C10 amended: muting a positive volume `v` stores it and sets the
volume to 0, and the next click restores exactly `v`; unmuting with a
remembered positive `lv` restores `lv`; unmuting when nothing was ever
remembered restores the initial remembered value 1 (the 0.8 fallback is
unreachable because `lastVolume` starts at 1 and is only ever set to a
positive volume). -/
theorem mute_roundtrip_amended (v lv : ℚ) (hv : 0 < v) :
    toggleMute v lv = (0, v)
    ∧ toggleMute 0 (toggleMute v lv).2 = (v, v)
    ∧ (0 < lv → toggleMute 0 lv = (lv, lv))
    ∧ toggleMute 0 initLastVolume = (1, 1) := by
  have h1 : toggleMute v lv = (0, v) := by rw [toggleMute, if_pos hv]
  refine ⟨h1, ?_, ?_, ?_⟩
  · rw [h1]
    show toggleMute 0 v = (v, v)
    rw [toggleMute, if_neg (lt_irrefl 0), if_neg hv.ne']
  · intro hlv
    rw [toggleMute, if_neg (lt_irrefl 0), if_neg hlv.ne']
  · norm_num [toggleMute, initLastVolume]

/-- Witness for claim C10 (amended) at `v = 1/2`, `lv = 3/4`. -/
theorem mute_roundtrip_amended_witness :
    (0 : ℚ) < 1/2
    ∧ toggleMute (1/2) (3/4) = (0, 1/2)
    ∧ toggleMute 0 (toggleMute (1/2) (3/4)).2 = (1/2, 1/2) := by
  have h := mute_roundtrip_amended (1/2) (3/4) (by norm_num)
  exact ⟨by norm_num, h.1, h.2.1⟩

end LiveLoop
